import Mathlib

/-!
Verification of the reference LRN (local response normalization) kernels of
src/src/cpu/ref_lrn.cpp: layout addressing, the forward and backward
per-element kernels, and the layout-specific loop drivers.

Modelling conventions:
* machine floats are modelled by exact rationals;
* the scalar helper fast_negative_powf(omega, beta), i.e. omega ^ (-beta),
  is abstracted by an arbitrary function pw : Q -> Q in the kernels (its own
  real-number specification is verified separately over the reals);
* C int indices are non-negative in every reachable state, so they are
  modelled by Nat; the expression nstl::max(x - y, 0) on ints coincides with
  truncated Nat subtraction x - y.
-/

namespace RefLrn

/-- Memory formats handled by the specialized code paths of ref_lrn.cpp
(the generic strided fallback delegates to an external descriptor and is
out of scope). -/
inductive Fmt where
  | nChw16c
  | nChw8c
  | nchw
  | nhwc
deriving DecidableEq

/-- Source line 60: constexpr int blksize = fmt == nChw16c ? 16 : 8. -/
def blksize (fmt : Fmt) : ℕ :=
  if fmt = Fmt.nChw16c then 16 else 8

/-- Block size relevant for layout validity: the channel block for the two
blocked formats, and 1 (no constraint) for the planar formats. -/
def layoutBlk (fmt : Fmt) : ℕ :=
  match fmt with
  | Fmt.nChw16c => 16
  | Fmt.nChw8c => 8
  | Fmt.nchw => 1
  | Fmt.nhwc => 1

/-- Blocked-layout offset (source lines 65-66 and 177-178):
mb*CHW + c/blk*H*W*blk + h*W*blk + w*blk + c%blk. -/
def off_blocked (blk C H W mb c h w : ℕ) : ℕ :=
  mb * (C * H * W) + c / blk * (H * W * blk) + h * (W * blk) + w * blk + c % blk

/-- Layout addressing function data_off (source lines 62-71 and 174-183). -/
def data_off (fmt : Fmt) (C H W mb c h w : ℕ) : ℕ :=
  match fmt with
  | Fmt.nChw16c => off_blocked 16 C H W mb c h w
  | Fmt.nChw8c => off_blocked 8 C H W mb c h w
  | Fmt.nchw => mb * (C * H * W) + c * (H * W) + h * W + w
  | Fmt.nhwc => mb * (C * H * W) + h * (W * C) + w * C + c

/-- A logical tensor coordinate (mb, c, h, w). -/
structure Coord where
  mb : ℕ
  c : ℕ
  h : ℕ
  w : ℕ
deriving DecidableEq

/-- Validity of a coordinate for shape (MB, C, H, W). -/
def Coord.valid (q : Coord) (MB C H W : ℕ) : Prop :=
  q.mb < MB ∧ q.c < C ∧ q.h < H ∧ q.w < W

instance (q : Coord) (MB C H W : ℕ) : Decidable (q.valid MB C H W) := by
  unfold Coord.valid; infer_instance

/-- LRN parameters (alpha, beta, k, local_size, algorithm kind). -/
structure LrnParams where
  alpha : ℚ
  beta : ℚ
  k : ℚ
  size : ℕ
  across : Bool

/-- Source lines 79 and 172: const int half_size = (size - 1) / 2. -/
def halfSize (sz : ℕ) : ℕ := (sz - 1) / 2

/-- Source line 102: summands = across_channels ? size : size * size. -/
def summandsOf (par : LrnParams) : ℕ :=
  if par.across then par.size else par.size * par.size

/-- The clamped index window of the source loops: from
nstl::max(center - half, 0) (truncated Nat subtraction) up to excluding
nstl::min(center + half + 1, bound). -/
def codeWindow (bound half center : ℕ) : Finset ℕ :=
  Finset.Ico (center - half) (min (center + half + 1) bound)

/-- Forward sum of squares over the neighborhood (source lines 81-101). -/
def fwdSum (fmt : Fmt) (par : LrnParams) (C H W : ℕ) (src : ℕ → ℚ)
    (mb oc oh ow : ℕ) : ℚ :=
  let half := halfSize par.size
  if par.across then
    ∑ c in codeWindow C half oc,
      src (data_off fmt C H W mb c oh ow) * src (data_off fmt C H W mb c oh ow)
  else
    ∑ h in codeWindow H half oh, ∑ w in codeWindow W half ow,
      src (data_off fmt C H W mb oc h w) * src (data_off fmt C H W mb oc h w)

/-- Forward normalization factor (source line 103):
sum = k + alpha * sum / summands. -/
def fwdOmega (fmt : Fmt) (par : LrnParams) (C H W : ℕ) (src : ℕ → ℚ)
    (mb oc oh ow : ℕ) : ℚ :=
  par.k + par.alpha * fwdSum fmt par C H W src mb oc oh ow / (summandsOf par : ℚ)

/-- Value written to dst by the forward kernel (source line 107):
d[0] = src[off] * fast_negative_powf(sum, beta); pw stands for
fast_negative_powf(., beta). -/
def fwdVal (pw : ℚ → ℚ) (fmt : Fmt) (par : LrnParams) (C H W : ℕ)
    (src : ℕ → ℚ) (mb oc oh ow : ℕ) : ℚ :=
  src (data_off fmt C H W mb oc oh ow) * pw (fwdOmega fmt par C H W src mb oc oh ow)

/-- The neighborhood window as the spec words it: indices of [0, bound)
within distance half of the center (window [center - half, center + half]
clamped to [0, bound)); center ≤ i + half renders center - half ≤ i without
integer subtraction. -/
def specWindow (bound half center : ℕ) : Finset ℕ :=
  (Finset.range bound).filter fun i => center ≤ i + half ∧ i ≤ center + half

/-- Forward normalization factor as the spec words it (spec 4.3 steps 1-3):
omega = k + alpha * S / summands with S the sum of squares over the clamped
neighborhood and summands the full unclamped window size. -/
def specFwdOmega (fmt : Fmt) (par : LrnParams) (C H W : ℕ) (src : ℕ → ℚ)
    (mb oc oh ow : ℕ) : ℚ :=
  let half := halfSize par.size
  let S : ℚ :=
    if par.across then
      ∑ c in specWindow C half oc, (src (data_off fmt C H W mb c oh ow)) ^ 2
    else
      ∑ h in specWindow H half oh, ∑ w in specWindow W half ow,
        (src (data_off fmt C H W mb oc h w)) ^ 2
  par.k + par.alpha * S / (summandsOf par : ℚ)

/-- Backward inner sum of squares (source lines 191-195): the loop variable
i runs over [c_st, c_en), the bounds of the window of oc, for every c. -/
def bwdSum (fmt : Fmt) (par : LrnParams) (C H W : ℕ) (src : ℕ → ℚ)
    (mb oc oh ow : ℕ) : ℚ :=
  let half := halfSize par.size
  ∑ i in codeWindow C half oc,
    src (data_off fmt C H W mb i oh ow) * src (data_off fmt C H W mb i oh ow)

/-- Backward normalization factor (source line 196):
omega = k + sum * alpha / kernel_size. The inner sum uses the window bounds
of oc, so the factor is the same for every neighbor c of the outer loop. -/
def bwdOmega (fmt : Fmt) (par : LrnParams) (C H W : ℕ) (src : ℕ → ℚ)
    (mb oc oh ow : ℕ) : ℚ :=
  par.k + bwdSum fmt par C H W src mb oc oh ow * par.alpha / (par.size : ℚ)

/-- The value held by omega_mid after the loop (source lines 189 and 197):
it is set in the iteration c = oc, which occurs exactly when oc lies in its
own clamped window; otherwise it keeps its initialization 0. -/
def bwdOmegaMid (fmt : Fmt) (par : LrnParams) (C H W : ℕ) (src : ℕ → ℚ)
    (mb oc oh ow : ℕ) : ℚ :=
  if oc ∈ codeWindow C (halfSize par.size) oc then
    bwdOmega fmt par C H W src mb oc oh ow
  else 0

/-- The accumulated cross term B before the final scalings (source lines
198-200): B += 1/omega * (src[off c] * fast_negative_powf(omega, beta))
* diff_dst[off c]. -/
def bwdB (pw : ℚ → ℚ) (fmt : Fmt) (par : LrnParams) (C H W : ℕ)
    (src dd : ℕ → ℚ) (mb oc oh ow : ℕ) : ℚ :=
  ∑ c in codeWindow C (halfSize par.size) oc,
    1 / bwdOmega fmt par C H W src mb oc oh ow
      * (src (data_off fmt C H W mb c oh ow)
          * pw (bwdOmega fmt par C H W src mb oc oh ow))
      * dd (data_off fmt C H W mb c oh ow)

/-- Value written to diff_src by the backward kernel (source lines 203-207):
A = fast_negative_powf(omega_mid, beta) * diff_dst[off];
B *= src[off]; B *= 2*alpha*beta / kernel_size; d = A - B.
The workspace argument ws mirrors the optional-workspace interface of the
backward entry point; this reference implementation reads only src and
diff_dst (source lines 153-155), so ws is never consulted. -/
def bwdVal (pw : ℚ → ℚ) (fmt : Fmt) (par : LrnParams) (C H W : ℕ)
    (src dd : ℕ → ℚ) (ws : Option (ℕ → ℚ)) (mb oc oh ow : ℕ) : ℚ :=
  let off := data_off fmt C H W mb oc oh ow
  pw (bwdOmegaMid fmt par C H W src mb oc oh ow) * dd off
    - bwdB pw fmt par C H W src dd mb oc oh ow * src off
        * (2 * par.alpha * par.beta / (par.size : ℚ))

/-- Per-neighbor normalization factor as the spec words it (spec 4.4 step 2):
omega of channel c over the clamped window of c itself,
k + alpha * (sum of squares over the own window of c) / local_size. -/
def specOwnOmega (fmt : Fmt) (par : LrnParams) (C H W : ℕ) (src : ℕ → ℚ)
    (mb c oh ow : ℕ) : ℚ :=
  par.k + par.alpha
      * (∑ i in specWindow C (halfSize par.size) c,
          (src (data_off fmt C H W mb i oh ow)) ^ 2)
      / (par.size : ℚ)

/-- Backward cross term as the spec words it (spec 4.4 step 3):
B = sum over c in the window of oc of
(1/omega_c) * (src[c] * omega_c ^ (-beta)) * diff_dst[c], each omega_c taken
over the own window of c. -/
def specBwdB (pw : ℚ → ℚ) (fmt : Fmt) (par : LrnParams) (C H W : ℕ)
    (src dd : ℕ → ℚ) (mb oc oh ow : ℕ) : ℚ :=
  ∑ c in specWindow C (halfSize par.size) oc,
    1 / specOwnOmega fmt par C H W src mb c oh ow
      * (src (data_off fmt C H W mb c oh ow)
          * pw (specOwnOmega fmt par C H W src mb c oh ow))
      * dd (data_off fmt C H W mb c oh ow)

/-- Backward output as the spec words it (spec 4.4 steps 4-5):
diff_src[oc] = A - B * src[oc] * (2*alpha*beta / local_size) with
A = (omega of oc) ^ (-beta) * diff_dst[oc]. -/
def specBwdVal (pw : ℚ → ℚ) (fmt : Fmt) (par : LrnParams) (C H W : ℕ)
    (src dd : ℕ → ℚ) (mb oc oh ow : ℕ) : ℚ :=
  let off := data_off fmt C H W mb oc oh ow
  pw (specOwnOmega fmt par C H W src mb oc oh ow) * dd off
    - specBwdB pw fmt par C H W src dd mb oc oh ow * src off
        * (2 * par.alpha * par.beta / (par.size : ℚ))

/-- The values taken by the loop head for (v = 0; v < n; v += step):
0, step, 2*step, ..., i.e. the first ceil(n/step) multiples of step. -/
def stepRange (n step : ℕ) : List ℕ :=
  (List.range ((n + step - 1) / step)).map (· * step)

/-- The loop drivers (forward: source lines 110-144; backward: lines
210-243, a textually identical loop nest): the list, in program order, of
(coordinate passed to ker, linear offset of the written output element). -/
def loopPairs (fmt : Fmt) (MB C H W : ℕ) : List (Coord × ℕ) :=
  match fmt with
  | Fmt.nChw16c | Fmt.nChw8c =>
    (List.range MB).flatMap fun mb =>
      (stepRange C (blksize fmt)).flatMap fun c =>
        (List.range H).flatMap fun h =>
          (List.range W).flatMap fun w =>
            (List.range (blksize fmt)).map fun cc =>
              (⟨mb, c + cc, h, w⟩,
                mb * (C * H * W) + c * (H * W) + (h * W + w) * blksize fmt + cc)
  | Fmt.nhwc =>
    (List.range MB).flatMap fun mb =>
      (List.range H).flatMap fun h =>
        (List.range W).flatMap fun w =>
          (List.range C).map fun c =>
            (⟨mb, c, h, w⟩, mb * (C * H * W) + h * (W * C) + w * C + c)
  | Fmt.nchw =>
    (List.range MB).flatMap fun mb =>
      (List.range C).flatMap fun c =>
        (List.range H).flatMap fun h =>
          (List.range W).map fun w =>
            (⟨mb, c, h, w⟩, data_off Fmt.nchw C H W mb c h w)

/-- State of the two output buffers of the forward pass. -/
structure FwdState where
  dst : ℕ → ℚ
  ws : ℕ → ℚ

/-- Pointwise update of a flat buffer. -/
def upd (f : ℕ → ℚ) (i : ℕ) (v : ℚ) : ℕ → ℚ :=
  fun j => if j = i then v else f j

/-- One forward kernel invocation as a state transformer (source lines
104-107): when a workspace is present, ws[off] receives omega at the
data_off of the coordinate; dst receives the normalized value through the
pointer supplied by the driver. -/
def fwdStep (pw : ℚ → ℚ) (fmt : Fmt) (par : LrnParams) (C H W : ℕ)
    (src : ℕ → ℚ) (hasWs : Bool) (st : FwdState) (pr : Coord × ℕ) : FwdState :=
  let q := pr.1
  let koff := data_off fmt C H W q.mb q.c q.h q.w
  let om := fwdOmega fmt par C H W src q.mb q.c q.h q.w
  { dst := upd st.dst pr.2 (src koff * pw om)
    ws := if hasWs then upd st.ws koff om else st.ws }

/-- The whole forward pass over the driver loop nest. -/
def runForward (pw : ℚ → ℚ) (fmt : Fmt) (par : LrnParams) (MB C H W : ℕ)
    (src : ℕ → ℚ) (hasWs : Bool) (st : FwdState) : FwdState :=
  (loopPairs fmt MB C H W).foldl (fwdStep pw fmt par C H W src hasWs) st

/-- Bijectivity of a layout addressing function on the valid coordinate
range, onto [0, MB*C*H*W): bounded image, injectivity, surjectivity. -/
def offBij (fmt : Fmt) (MB C H W : ℕ) : Prop :=
  (∀ mb < MB, ∀ c < C, ∀ h < H, ∀ w < W,
      data_off fmt C H W mb c h w < MB * (C * H * W))
  ∧ (∀ mb < MB, ∀ c < C, ∀ h < H, ∀ w < W,
      ∀ mb' < MB, ∀ c' < C, ∀ h' < H, ∀ w' < W,
        data_off fmt C H W mb c h w = data_off fmt C H W mb' c' h' w' →
          mb = mb' ∧ c = c' ∧ h = h' ∧ w = w')
  ∧ (∀ t < MB * (C * H * W), ∃ mb < MB, ∃ c < C, ∃ h < H, ∃ w < W,
      data_off fmt C H W mb c h w = t)

/-- The logical channels handed to ker by one (mb, h, w) iteration of a
blocked driver (source lines 114, 121-122): c + cc for c stepping by blk
below n and cc ranging over a whole block. -/
def blockChannels (n blk : ℕ) : List ℕ :=
  (stepRange n blk).flatMap fun c => (List.range blk).map fun cc => c + cc

/-- The real-number scalar helper (source lines 30-39): the fast path for
beta = 0.75 computes y = 1/sqrt(omega); y *= sqrt(y); the general path
computes 1 / omega ^ beta. -/
noncomputable def fast_negative_powf (omega beta : ℝ) : ℝ :=
  if beta = 3 / 4 then
    let y := 1 / Real.sqrt omega
    y * Real.sqrt y
  else 1 / omega ^ beta

/-! ### Helper lemmas: windows -/

theorem specWindow_eq_codeWindow (bound half center : ℕ) :
    specWindow bound half center = codeWindow bound half center := by
  ext i
  simp only [specWindow, codeWindow, Finset.mem_Ico, Finset.mem_filter,
    Finset.mem_range]
  omega

theorem codeWindow_lt {bound half center i : ℕ}
    (hi : i ∈ codeWindow bound half center) : i < bound := by
  simp only [codeWindow, Finset.mem_Ico] at hi
  omega

theorem codeWindow_self {bound half center : ℕ} (h : center < bound) :
    center ∈ codeWindow bound half center := by
  simp only [codeWindow, Finset.mem_Ico]
  omega

theorem codeWindow_singleton {bound center : ℕ} (h : center < bound) :
    codeWindow bound 0 center = {center} := by
  ext i
  simp only [codeWindow, Finset.mem_Ico, Finset.mem_singleton]
  omega

/-! ### Helper lemmas: mixed-radix offset arithmetic -/

theorem horner_lt {a A d D : ℕ} (ha : a < A) (hd : d < D) :
    a * D + d < A * D := by
  calc a * D + d < (a + 1) * D := by
        rw [Nat.add_mul, Nat.one_mul]; omega
  _ ≤ A * D := Nat.mul_le_mul_right D ha

theorem horner_peel {x y d e D : ℕ} (hd : d < D) (he : e < D)
    (h : x * D + d = y * D + e) : x = y ∧ d = e := by
  have hD : 0 < D := Nat.lt_of_le_of_lt (Nat.zero_le d) hd
  have hde : d = e := by
    have h1 : (x * D + d) % D = (y * D + e) % D := by rw [h]
    rwa [Nat.mul_comm x D, Nat.mul_comm y D, Nat.mul_add_mod, Nat.mul_add_mod,
      Nat.mod_eq_of_lt hd, Nat.mod_eq_of_lt he] at h1
  refine ⟨?_, hde⟩
  have h2 : x * D = y * D := by omega
  exact Nat.eq_of_mul_eq_mul_right hD h2

theorem off_nchw_horner (C H W mb c h w : ℕ) :
    data_off Fmt.nchw C H W mb c h w = ((mb * C + c) * H + h) * W + w := by
  simp only [data_off]
  ring

theorem off_nhwc_horner (C H W mb c h w : ℕ) :
    data_off Fmt.nhwc C H W mb c h w = ((mb * H + h) * W + w) * C + c := by
  simp only [data_off]
  ring

theorem off_blocked_horner {blk C : ℕ} (hblk : 0 < blk) (hdvd : blk ∣ C)
    (H W mb c h w : ℕ) :
    off_blocked blk C H W mb c h w
      = (((mb * (C / blk) + c / blk) * H + h) * W + w) * blk + c % blk := by
  obtain ⟨q, rfl⟩ := hdvd
  rw [Nat.mul_div_cancel_left q hblk]
  unfold off_blocked
  ring

theorem mulfour_assoc (MB C H W : ℕ) :
    MB * C * H * W = MB * (C * H * W) := by ring

/-- Bounded image for all four layouts, given the block-divisibility
condition (trivial for the planar layouts). -/
theorem data_off_lt (fmt : Fmt) {C : ℕ} (hdvd : layoutBlk fmt ∣ C)
    {MB H W mb c h w : ℕ} (hmb : mb < MB) (hc : c < C) (hh : h < H)
    (hw : w < W) : data_off fmt C H W mb c h w < MB * (C * H * W) := by
  rw [← mulfour_assoc]
  cases fmt with
  | nchw =>
    rw [off_nchw_horner]
    exact horner_lt (horner_lt (horner_lt hmb hc) hh) hw
  | nhwc =>
    have h1 : ((mb * H + h) * W + w) * C + c < MB * H * W * C :=
      horner_lt (horner_lt (horner_lt hmb hh) hw) hc
    rw [off_nhwc_horner]
    calc ((mb * H + h) * W + w) * C + c < MB * H * W * C := h1
    _ = MB * C * H * W := by ring
  | nChw8c =>
    have hdvd8 : 8 ∣ C := hdvd
    have hcb : c / 8 < C / 8 := Nat.div_lt_div_of_lt_of_dvd hdvd8 hc
    have hcc : c % 8 < 8 := Nat.mod_lt c (by omega)
    have h1 : (((mb * (C / 8) + c / 8) * H + h) * W + w) * 8 + c % 8
        < MB * (C / 8) * H * W * 8 :=
      horner_lt (horner_lt (horner_lt (horner_lt hmb hcb) hh) hw) hcc
    have hC : C / 8 * 8 = C := Nat.div_mul_cancel hdvd8
    calc data_off Fmt.nChw8c C H W mb c h w
        = (((mb * (C / 8) + c / 8) * H + h) * W + w) * 8 + c % 8 :=
          off_blocked_horner (by omega) hdvd8 H W mb c h w
    _ < MB * (C / 8) * H * W * 8 := h1
    _ = MB * (C / 8 * 8) * H * W := by ring
    _ = MB * C * H * W := by rw [hC]
  | nChw16c =>
    have hdvd16 : 16 ∣ C := hdvd
    have hcb : c / 16 < C / 16 := Nat.div_lt_div_of_lt_of_dvd hdvd16 hc
    have hcc : c % 16 < 16 := Nat.mod_lt c (by omega)
    have h1 : (((mb * (C / 16) + c / 16) * H + h) * W + w) * 16 + c % 16
        < MB * (C / 16) * H * W * 16 :=
      horner_lt (horner_lt (horner_lt (horner_lt hmb hcb) hh) hw) hcc
    have hC : C / 16 * 16 = C := Nat.div_mul_cancel hdvd16
    calc data_off Fmt.nChw16c C H W mb c h w
        = (((mb * (C / 16) + c / 16) * H + h) * W + w) * 16 + c % 16 :=
          off_blocked_horner (by omega) hdvd16 H W mb c h w
    _ < MB * (C / 16) * H * W * 16 := h1
    _ = MB * (C / 16 * 16) * H * W := by ring
    _ = MB * C * H * W := by rw [hC]

/-- Injectivity on the valid range for all four layouts (the batch index
needs no upper bound: it is the most significant digit). -/
theorem data_off_inj (fmt : Fmt) {C : ℕ} (hdvd : layoutBlk fmt ∣ C)
    {H W mb c h w mb' c' h' w' : ℕ} (hc : c < C) (hh : h < H) (hw : w < W)
    (hc' : c' < C) (hh' : h' < H) (hw' : w' < W)
    (heq : data_off fmt C H W mb c h w = data_off fmt C H W mb' c' h' w') :
    mb = mb' ∧ c = c' ∧ h = h' ∧ w = w' := by
  cases fmt with
  | nchw =>
    rw [off_nchw_horner, off_nchw_horner] at heq
    obtain ⟨heq, hweq⟩ := horner_peel hw hw' heq
    obtain ⟨heq, hheq⟩ := horner_peel hh hh' heq
    obtain ⟨hmbeq, hceq⟩ := horner_peel hc hc' heq
    exact ⟨hmbeq, hceq, hheq, hweq⟩
  | nhwc =>
    rw [off_nhwc_horner, off_nhwc_horner] at heq
    obtain ⟨heq, hceq⟩ := horner_peel hc hc' heq
    obtain ⟨heq, hweq⟩ := horner_peel hw hw' heq
    obtain ⟨hmbeq, hheq⟩ := horner_peel hh hh' heq
    exact ⟨hmbeq, hceq, hheq, hweq⟩
  | nChw8c =>
    have hdvd8 : 8 ∣ C := hdvd
    simp only [data_off] at heq
    rw [off_blocked_horner (by omega) hdvd8, off_blocked_horner (by omega) hdvd8]
      at heq
    have hcb : c / 8 < C / 8 := Nat.div_lt_div_of_lt_of_dvd hdvd8 hc
    have hcb' : c' / 8 < C / 8 := Nat.div_lt_div_of_lt_of_dvd hdvd8 hc'
    obtain ⟨heq, hmod⟩ := horner_peel (Nat.mod_lt c (by omega))
      (Nat.mod_lt c' (by omega)) heq
    obtain ⟨heq, hweq⟩ := horner_peel hw hw' heq
    obtain ⟨heq, hheq⟩ := horner_peel hh hh' heq
    obtain ⟨hmbeq, hdiv⟩ := horner_peel hcb hcb' heq
    exact ⟨hmbeq, by omega, hheq, hweq⟩
  | nChw16c =>
    have hdvd16 : 16 ∣ C := hdvd
    simp only [data_off] at heq
    rw [off_blocked_horner (by omega) hdvd16,
      off_blocked_horner (by omega) hdvd16] at heq
    have hcb : c / 16 < C / 16 := Nat.div_lt_div_of_lt_of_dvd hdvd16 hc
    have hcb' : c' / 16 < C / 16 := Nat.div_lt_div_of_lt_of_dvd hdvd16 hc'
    obtain ⟨heq, hmod⟩ := horner_peel (Nat.mod_lt c (by omega))
      (Nat.mod_lt c' (by omega)) heq
    obtain ⟨heq, hweq⟩ := horner_peel hw hw' heq
    obtain ⟨heq, hheq⟩ := horner_peel hh hh' heq
    obtain ⟨hmbeq, hdiv⟩ := horner_peel hcb hcb' heq
    exact ⟨hmbeq, by omega, hheq, hweq⟩

/-- Surjectivity onto [0, MB*C*H*W) by counting: the injective bounded image
of the MB*C*H*W valid coordinates fills the whole range. -/
theorem data_off_surj (fmt : Fmt) {MB C H W : ℕ} (hdvd : layoutBlk fmt ∣ C) :
    ∀ t < MB * (C * H * W), ∃ mb < MB, ∃ c < C, ∃ h < H, ∃ w < W,
      data_off fmt C H W mb c h w = t := by
  classical
  intro t ht
  set N := MB * (C * H * W) with hN
  set S : Finset (ℕ × ℕ × ℕ × ℕ) :=
    Finset.range MB ×ˢ Finset.range C ×ˢ Finset.range H ×ˢ Finset.range W
    with hS
  set f : ℕ × ℕ × ℕ × ℕ → ℕ :=
    fun q => data_off fmt C H W q.1 q.2.1 q.2.2.1 q.2.2.2 with hf
  have hmem : ∀ q : ℕ × ℕ × ℕ × ℕ,
      q ∈ S ↔ q.1 < MB ∧ q.2.1 < C ∧ q.2.2.1 < H ∧ q.2.2.2 < W := by
    intro q
    simp [hS, Finset.mem_product, Finset.mem_range]
  have hsub : S.image f ⊆ Finset.range N := by
    intro x hx
    obtain ⟨q, hq, rfl⟩ := Finset.mem_image.mp hx
    obtain ⟨h1, h2, h3, h4⟩ := (hmem q).mp hq
    exact Finset.mem_range.mpr (data_off_lt fmt hdvd h1 h2 h3 h4)
  have hinj : Set.InjOn f S := by
    rintro ⟨a, b, u, v⟩ hq ⟨a', b', u', v'⟩ hq' hfq
    have h1 := (hmem (a, b, u, v)).mp (Finset.mem_coe.mp hq)
    have h2 := (hmem (a', b', u', v')).mp (Finset.mem_coe.mp hq')
    obtain ⟨e1, e2, e3, e4⟩ := data_off_inj fmt hdvd h1.2.1 h1.2.2.1 h1.2.2.2
      h2.2.1 h2.2.2.1 h2.2.2.2 hfq
    exact Prod.ext e1 (Prod.ext e2 (Prod.ext e3 e4))
  have hcard : (S.image f).card = N := by
    rw [Finset.card_image_of_injOn hinj]
    simp only [hS, Finset.card_product, Finset.card_range, hN]
    ring
  have himg : S.image f = Finset.range N :=
    Finset.eq_of_subset_of_card_le hsub (by rw [hcard, Finset.card_range])
  have htm : t ∈ S.image f := by
    rw [himg]
    exact Finset.mem_range.mpr ht
  obtain ⟨q, hq, hft⟩ := Finset.mem_image.mp htm
  obtain ⟨h1, h2, h3, h4⟩ := (hmem q).mp hq
  exact ⟨q.1, h1, q.2.1, h2, q.2.2.1, h3, q.2.2.2, h4, hft⟩

/-! ### Helper lemmas: loop enumerations -/

theorem range_horner2 (A B : ℕ) :
    ((List.range A).flatMap fun a => (List.range B).map fun b => a * B + b)
      = List.range (A * B) := by
  induction A with
  | zero => simp
  | succ n ih =>
    rw [List.range_succ, List.flatMap_append, ih, Nat.succ_mul, List.range_add]
    simp

theorem range_horner2_shift (s A B : ℕ) :
    ((List.range A).flatMap fun a =>
        (List.range B).map fun b => s + (a * B + b))
      = (List.range (A * B)).map fun t => s + t := by
  rw [← range_horner2, List.map_flatMap]
  simp only [List.map_map]
  rfl

theorem stepRange_dvd {n step : ℕ} (hstep : 0 < step) (hdvd : step ∣ n) :
    stepRange n step = (List.range (n / step)).map (· * step) := by
  obtain ⟨q, rfl⟩ := hdvd
  have h1 : (step * q + step - 1) / step = q := by
    have h2 : step * q + step - 1 = step * q + (step - 1) := by omega
    rw [h2, Nat.mul_add_div hstep, Nat.div_eq_of_lt (by omega)]
    omega
  unfold stepRange
  rw [h1, Nat.mul_div_cancel_left q hstep]

theorem blockChannels_eq_range {n blk : ℕ} (hblk : 0 < blk) (hdvd : blk ∣ n) :
    blockChannels n blk = List.range n := by
  unfold blockChannels
  rw [stepRange_dvd hblk hdvd, List.flatMap_map]
  rw [range_horner2, Nat.div_mul_cancel hdvd]

/-- The offsets produced by a blocked loop nest, in program order, are
exactly 0, 1, ..., MB*C*H*W - 1 when blk divides C. -/
theorem blocked_enum_snd (MB C H W blk : ℕ) (hblk : 0 < blk) (hdvd : blk ∣ C) :
    ((List.range MB).flatMap fun mb =>
      (stepRange C blk).flatMap fun c =>
        (List.range H).flatMap fun h =>
          (List.range W).flatMap fun w =>
            (List.range blk).map fun cc =>
              mb * (C * H * W) + c * (H * W) + (h * W + w) * blk + cc)
      = List.range (MB * (C * H * W)) := by
  rw [stepRange_dvd hblk hdvd]
  simp only [List.flatMap_map]
  have e1 : ∀ mb b h w cc : ℕ,
      mb * (C * H * W) + b * blk * (H * W) + (h * W + w) * blk + cc
        = (mb * (C * H * W) + b * (H * (W * blk)) + h * (W * blk))
            + (w * blk + cc) := by
    intros; ring
  simp only [e1, range_horner2_shift]
  have e2 : ∀ mb b h t : ℕ,
      (mb * (C * H * W) + b * (H * (W * blk)) + h * (W * blk)) + t
        = (mb * (C * H * W) + b * (H * (W * blk))) + (h * (W * blk) + t) := by
    intros; ring
  simp only [e2, range_horner2_shift]
  have e3 : ∀ mb b t : ℕ, (mb * (C * H * W) + b * (H * (W * blk))) + t
      = mb * (C * H * W) + (b * (H * (W * blk)) + t) := by
    intros; ring
  simp only [e3, range_horner2_shift]
  have hC : C / blk * blk = C := Nat.div_mul_cancel hdvd
  have e4 : C / blk * (H * (W * blk)) = C * H * W := by
    have e5 : C / blk * (H * (W * blk)) = C / blk * blk * (H * W) := by ring
    rw [e5, hC]; ring
  rw [e4]
  exact range_horner2 MB (C * H * W)

/-- Offsets written by any of the drivers, in program order, are exactly
0, 1, ..., MB*C*H*W - 1 (given block divisibility for blocked layouts). -/
theorem loopPairs_snd_range (fmt : Fmt) (MB C H W : ℕ)
    (hdvd : layoutBlk fmt ∣ C) :
    (loopPairs fmt MB C H W).map Prod.snd = List.range (MB * (C * H * W)) := by
  cases fmt with
  | nchw =>
    simp only [loopPairs, List.map_flatMap, List.map_map, Function.comp_def]
    have hoff : ∀ mb c h w : ℕ, data_off Fmt.nchw C H W mb c h w
        = (mb * (C * (H * W)) + c * (H * W)) + (h * W + w) := by
      intro mb c h w; simp only [data_off]; ring
    simp only [hoff, range_horner2_shift]
    have e2 : ∀ mb c t : ℕ, (mb * (C * (H * W)) + c * (H * W)) + t
        = mb * (C * (H * W)) + (c * (H * W) + t) := by intros; ring
    simp only [e2, range_horner2_shift]
    rw [range_horner2]
    congr 1
    ring
  | nhwc =>
    simp only [loopPairs, List.map_flatMap, List.map_map, Function.comp_def]
    have e1 : ∀ mb h w c : ℕ,
        mb * (C * H * W) + h * (W * C) + w * C + c
          = (mb * (H * (W * C)) + h * (W * C)) + (w * C + c) := by
      intros; ring
    simp only [e1, range_horner2_shift]
    have e2 : ∀ mb h t : ℕ, (mb * (H * (W * C)) + h * (W * C)) + t
        = mb * (H * (W * C)) + (h * (W * C) + t) := by intros; ring
    simp only [e2, range_horner2_shift]
    rw [range_horner2]
    congr 1
    ring
  | nChw8c =>
    simp only [loopPairs, List.map_flatMap, List.map_map, Function.comp_def]
    rw [show blksize Fmt.nChw8c = 8 from rfl]
    exact blocked_enum_snd MB C H W 8 (by omega) hdvd
  | nChw16c =>
    simp only [loopPairs, List.map_flatMap, List.map_map, Function.comp_def]
    rw [show blksize Fmt.nChw16c = 16 from rfl]
    exact blocked_enum_snd MB C H W 16 (by omega) hdvd

/-- Every kernel invocation issued by a driver is at a valid coordinate
(given block divisibility for blocked layouts). -/
theorem loopPairs_fst_valid (fmt : Fmt) {MB C H W : ℕ}
    (hdvd : layoutBlk fmt ∣ C) {pr : Coord × ℕ}
    (hpr : pr ∈ loopPairs fmt MB C H W) : pr.1.valid MB C H W := by
  cases fmt with
  | nchw =>
    simp only [loopPairs, List.mem_flatMap, List.mem_map, List.mem_range] at hpr
    obtain ⟨mb, hmb, c, hc, h, hh, w, hw, heq⟩ := hpr
    rw [← heq]
    exact ⟨hmb, hc, hh, hw⟩
  | nhwc =>
    simp only [loopPairs, List.mem_flatMap, List.mem_map, List.mem_range] at hpr
    obtain ⟨mb, hmb, h, hh, w, hw, c, hc, heq⟩ := hpr
    rw [← heq]
    exact ⟨hmb, hc, hh, hw⟩
  | nChw8c =>
    have hdvd8 : (8 : ℕ) ∣ C := hdvd
    simp only [loopPairs, show blksize Fmt.nChw8c = 8 from rfl, stepRange,
      List.mem_flatMap, List.mem_map, List.mem_range] at hpr
    obtain ⟨mb, hmb, c, ⟨⟨b, hb, hc⟩, h, hh, w, hw, cc, hcc, heq⟩⟩ := hpr
    rw [← heq]
    refine ⟨hmb, ?_, hh, hw⟩
    show c + cc < C
    omega
  | nChw16c =>
    have hdvd16 : (16 : ℕ) ∣ C := hdvd
    simp only [loopPairs, show blksize Fmt.nChw16c = 16 from rfl, stepRange,
      List.mem_flatMap, List.mem_map, List.mem_range] at hpr
    obtain ⟨mb, hmb, c, ⟨⟨b, hb, hc⟩, h, hh, w, hw, cc, hcc, heq⟩⟩ := hpr
    rw [← heq]
    refine ⟨hmb, ?_, hh, hw⟩
    show c + cc < C
    omega

/-- Every driver writes its output element at the data_off of the
coordinate it passes to ker (inline-offset agreement; no divisibility
needed). -/
theorem loopPairs_snd_eq (fmt : Fmt) {MB C H W : ℕ} {pr : Coord × ℕ}
    (hpr : pr ∈ loopPairs fmt MB C H W) :
    pr.2 = data_off fmt C H W pr.1.mb pr.1.c pr.1.h pr.1.w := by
  cases fmt with
  | nchw =>
    simp only [loopPairs, List.mem_flatMap, List.mem_map, List.mem_range] at hpr
    obtain ⟨mb, hmb, c, hc, h, hh, w, hw, heq⟩ := hpr
    rw [← heq]
  | nhwc =>
    simp only [loopPairs, List.mem_flatMap, List.mem_map, List.mem_range] at hpr
    obtain ⟨mb, hmb, h, hh, w, hw, c, hc, heq⟩ := hpr
    rw [← heq]
    simp only [data_off]
  | nChw8c =>
    simp only [loopPairs, show blksize Fmt.nChw8c = 8 from rfl, stepRange,
      List.mem_flatMap, List.mem_map, List.mem_range] at hpr
    obtain ⟨mb, hmb, c, ⟨⟨b, hb, hc⟩, h, hh, w, hw, cc, hcc, heq⟩⟩ := hpr
    rw [← heq]
    show mb * (C * H * W) + c * (H * W) + (h * W + w) * 8 + cc
      = data_off Fmt.nChw8c C H W mb (c + cc) h w
    subst hc
    have hdiv : (b * 8 + cc) / 8 = b := by omega
    have hmod : (b * 8 + cc) % 8 = cc := by omega
    simp only [data_off, off_blocked, hdiv, hmod]
    ring
  | nChw16c =>
    simp only [loopPairs, show blksize Fmt.nChw16c = 16 from rfl, stepRange,
      List.mem_flatMap, List.mem_map, List.mem_range] at hpr
    obtain ⟨mb, hmb, c, ⟨⟨b, hb, hc⟩, h, hh, w, hw, cc, hcc, heq⟩⟩ := hpr
    rw [← heq]
    show mb * (C * H * W) + c * (H * W) + (h * W + w) * 16 + cc
      = data_off Fmt.nChw16c C H W mb (c + cc) h w
    subst hc
    have hdiv : (b * 16 + cc) / 16 = b := by omega
    have hmod : (b * 16 + cc) % 16 = cc := by omega
    simp only [data_off, off_blocked, hdiv, hmod]
    ring

/-- Every valid coordinate is visited by the driver (given block
divisibility for blocked layouts). -/
theorem loopPairs_fst_mem (fmt : Fmt) {MB C H W : ℕ}
    (hdvd : layoutBlk fmt ∣ C) {q : Coord} (hq : q.valid MB C H W) :
    ∃ pr ∈ loopPairs fmt MB C H W, pr.1 = q := by
  obtain ⟨h1, h2, h3, h4⟩ := hq
  have hlt : data_off fmt C H W q.mb q.c q.h q.w < MB * (C * H * W) :=
    data_off_lt fmt hdvd h1 h2 h3 h4
  have hmem : data_off fmt C H W q.mb q.c q.h q.w
      ∈ (loopPairs fmt MB C H W).map Prod.snd := by
    rw [loopPairs_snd_range fmt MB C H W hdvd]
    exact List.mem_range.mpr hlt
  obtain ⟨pr, hpr, ho⟩ := List.mem_map.mp hmem
  refine ⟨pr, hpr, ?_⟩
  have hv : pr.1.valid MB C H W := loopPairs_fst_valid fmt hdvd hpr
  have he : data_off fmt C H W pr.1.mb pr.1.c pr.1.h pr.1.w
      = data_off fmt C H W q.mb q.c q.h q.w := by
    rw [← loopPairs_snd_eq fmt hpr, ho]
  obtain ⟨e1, e2, e3, e4⟩ :=
    data_off_inj fmt hdvd hv.2.1 hv.2.2.1 hv.2.2.2 h2 h3 h4 he
  calc pr.1 = ⟨pr.1.mb, pr.1.c, pr.1.h, pr.1.w⟩ := rfl
  _ = q := by rw [e1, e2, e3, e4]

/-! ### Helper lemmas: the forward run as a fold -/

theorem foldl_dst_eq (pw : ℚ → ℚ) (fmt : Fmt) (par : LrnParams) (C H W : ℕ)
    (src : ℕ → ℚ) (l : List (Coord × ℕ)) :
    ∀ st st' : FwdState, st.dst = st'.dst →
      (l.foldl (fwdStep pw fmt par C H W src true) st).dst
        = (l.foldl (fwdStep pw fmt par C H W src false) st').dst := by
  induction l with
  | nil => intro st st' h; exact h
  | cons a t ih =>
    intro st st' h
    rw [List.foldl_cons, List.foldl_cons]
    apply ih
    simp only [fwdStep]
    rw [h]

theorem foldl_ws_untouched (pw : ℚ → ℚ) (fmt : Fmt) (par : LrnParams)
    (C H W : ℕ) (src : ℕ → ℚ) (l : List (Coord × ℕ)) (o : ℕ)
    (hno : ∀ pr ∈ l, data_off fmt C H W pr.1.mb pr.1.c pr.1.h pr.1.w ≠ o) :
    ∀ st : FwdState,
      (l.foldl (fwdStep pw fmt par C H W src true) st).ws o = st.ws o := by
  induction l with
  | nil => intro st; rfl
  | cons a t ih =>
    intro st
    rw [List.foldl_cons]
    rw [ih (fun pr hpr => hno pr (List.mem_cons_of_mem a hpr))]
    simp only [fwdStep, upd, if_true]
    rw [if_neg]
    intro hcon
    exact hno a (List.mem_cons_self a t) (hcon ▸ rfl)

theorem foldl_ws_written (pw : ℚ → ℚ) (fmt : Fmt) (par : LrnParams)
    (C H W : ℕ) (src : ℕ → ℚ) (l : List (Coord × ℕ))
    (hsnd : ∀ pr ∈ l, pr.2 = data_off fmt C H W pr.1.mb pr.1.c pr.1.h pr.1.w)
    (hnd : (l.map Prod.snd).Nodup) :
    ∀ pr ∈ l, ∀ st : FwdState,
      (l.foldl (fwdStep pw fmt par C H W src true) st).ws pr.2
        = fwdOmega fmt par C H W src pr.1.mb pr.1.c pr.1.h pr.1.w := by
  induction l with
  | nil => intro pr hpr; cases hpr
  | cons a t ih =>
    intro pr hpr st
    rw [List.foldl_cons]
    have hnd' : ((t.map Prod.snd)).Nodup := (List.nodup_cons.mp hnd).2
    have hna : a.2 ∉ t.map Prod.snd := (List.nodup_cons.mp hnd).1
    rcases List.mem_cons.mp hpr with heq | hmem
    · subst heq
      have hno : ∀ pr' ∈ t,
          data_off fmt C H W pr'.1.mb pr'.1.c pr'.1.h pr'.1.w ≠ pr.2 := by
        intro pr' hpr'
        rw [← hsnd pr' (List.mem_cons_of_mem pr hpr')]
        intro hcon
        exact hna (hcon ▸ List.mem_map_of_mem Prod.snd hpr')
      rw [foldl_ws_untouched pw fmt par C H W src t pr.2 hno]
      simp only [fwdStep, upd, if_true]
      rw [← hsnd pr (List.mem_cons_self pr t), if_pos rfl]
    · exact ih (fun pr' hpr' => hsnd pr' (List.mem_cons_of_mem a hpr')) hnd'
        pr hmem _

/-! ### Helper lemmas: per-element kernel algebra -/

theorem fwdOmega_eq_spec (fmt : Fmt) (par : LrnParams) (C H W : ℕ)
    (src : ℕ → ℚ) (mb oc oh ow : ℕ) :
    specFwdOmega fmt par C H W src mb oc oh ow
      = fwdOmega fmt par C H W src mb oc oh ow := by
  unfold specFwdOmega fwdOmega fwdSum
  cases hb : par.across <;>
    simp [hb, specWindow_eq_codeWindow, pow_two]

/-! ### Claim C1 -/

/-- Claim C1: refuted by evaluating the code. In the backward kernel the
per-neighbor normalization factor is computed with the inner loop running
over the window bounds of oc (lines 192-195), not over the own window of
the neighbor c. At C = 3, H = W = 1, nchw, k = 1, alpha = 3, local_size = 3,
src identically 1, for output channel oc = 0 the neighbor c = 1 lies in the
window of oc, the factor the code uses for it is 3 (window {0, 1} of oc),
while k + alpha * (sum of squares over the own window {0, 1, 2} of c) /
local_size = 4. -/
theorem lrn_c1_backward_shared_window_bug :
    (1 : ℕ) ∈ codeWindow 3 (halfSize 3) 0
    ∧ bwdOmega Fmt.nchw ⟨3, 1, 1, 3, true⟩ 3 1 1 (fun _ => 1) 0 0 0 0 = 3
    ∧ specOwnOmega Fmt.nchw ⟨3, 1, 1, 3, true⟩ 3 1 1 (fun _ => 1) 0 1 0 0 = 4
    ∧ (3 : ℚ) ≠ 4 := by
  refine ⟨by decide, ?_, ?_, by norm_num⟩
  · rw [show bwdOmega Fmt.nchw ⟨3, 1, 1, 3, true⟩ 3 1 1 (fun _ => 1) 0 0 0 0
        = 1 + (∑ i in codeWindow 3 1 0, (1 : ℚ) * 1) * 3 / 3 from rfl]
    rw [show codeWindow 3 1 0 = ({0, 1} : Finset ℕ) by decide]
    norm_num
  · rw [show specOwnOmega Fmt.nchw ⟨3, 1, 1, 3, true⟩ 3 1 1 (fun _ => 1) 0 1 0 0
        = 1 + 3 * (∑ i in specWindow 3 1 1, ((1 : ℚ)) ^ 2) / 3 from rfl]
    rw [show specWindow 3 1 1 = ({0, 1, 2} : Finset ℕ) by decide]
    norm_num

/-! ### Claim C3 -/

/-- Claim C3: refuted by evaluating the code against the formula of the
spec. Same input as C1, with diff_dst identically 1 and the power helper
instantiated at fun x => x * x: the code writes -3 at (0, 0, 0, 0) while
the formula of the spec (per-neighbor factors over their own windows)
gives -5. -/
theorem lrn_c3_backward_formula_divergence :
    bwdVal (fun x => x * x) Fmt.nchw ⟨3, 1, 1, 3, true⟩ 3 1 1
        (fun _ => 1) (fun _ => 1) none 0 0 0 0 = -3
    ∧ specBwdVal (fun x => x * x) Fmt.nchw ⟨3, 1, 1, 3, true⟩ 3 1 1
        (fun _ => 1) (fun _ => 1) 0 0 0 0 = -5
    ∧ (-3 : ℚ) ≠ -5 := by
  refine ⟨?_, ?_, by norm_num⟩
  · have hom : bwdOmega Fmt.nchw ⟨3, 1, 1, 3, true⟩ 3 1 1 (fun _ => 1) 0 0 0 0
        = 3 := by
      rw [show bwdOmega Fmt.nchw ⟨3, 1, 1, 3, true⟩ 3 1 1 (fun _ => 1) 0 0 0 0
          = 1 + (∑ i in codeWindow 3 1 0, (1 : ℚ) * 1) * 3 / 3 from rfl]
      rw [show codeWindow 3 1 0 = ({0, 1} : Finset ℕ) by decide]
      norm_num
    unfold bwdVal bwdB bwdOmegaMid
    rw [hom]
    rw [show codeWindow 3 (halfSize 3) 0 = ({0, 1} : Finset ℕ) by decide]
    rw [if_pos (by decide)]
    norm_num
  · have h0 : specOwnOmega Fmt.nchw ⟨3, 1, 1, 3, true⟩ 3 1 1 (fun _ => 1) 0 0 0 0
        = 3 := by
      rw [show specOwnOmega Fmt.nchw ⟨3, 1, 1, 3, true⟩ 3 1 1 (fun _ => 1) 0 0 0 0
          = 1 + 3 * (∑ i in specWindow 3 1 0, ((1 : ℚ)) ^ 2) / 3 from rfl]
      rw [show specWindow 3 1 0 = ({0, 1} : Finset ℕ) by decide]
      norm_num
    have h1 : specOwnOmega Fmt.nchw ⟨3, 1, 1, 3, true⟩ 3 1 1 (fun _ => 1) 0 1 0 0
        = 4 := by
      rw [show specOwnOmega Fmt.nchw ⟨3, 1, 1, 3, true⟩ 3 1 1 (fun _ => 1) 0 1 0 0
          = 1 + 3 * (∑ i in specWindow 3 1 1, ((1 : ℚ)) ^ 2) / 3 from rfl]
      rw [show specWindow 3 1 1 = ({0, 1, 2} : Finset ℕ) by decide]
      norm_num
    unfold specBwdVal specBwdB
    rw [show specWindow 3 (halfSize 3) 0 = ({0, 1} : Finset ℕ) by decide]
    rw [Finset.sum_insert (by decide), Finset.sum_singleton, h0, h1]
    norm_num

/-! ### Claim C2 -/

/-- Claim C2: for every coordinate and every parameter set with k ≥ 0,
alpha ≥ 0 and local_size odd, the forward kernel writes
dst = src[off] * pw(omega) where omega = k + alpha * S / summands, S the
sum of squares over the boundary-clamped neighborhood (channel window
[oc-half, oc+half] clamped to [0,C) across channels; spatial window clamped
to [0,H) x [0,W) within channel) and summands the full unclamped window
size (local_size, respectively local_size squared); pw stands for the
power map omega ^ (-beta). -/
theorem lrn_c2_forward_formula (pw : ℚ → ℚ) (fmt : Fmt) (par : LrnParams)
    (C H W : ℕ) (src : ℕ → ℚ) (mb oc oh ow : ℕ)
    (hk : 0 ≤ par.k) (ha : 0 ≤ par.alpha) (hodd : par.size % 2 = 1) :
    fwdVal pw fmt par C H W src mb oc oh ow
      = src (data_off fmt C H W mb oc oh ow)
          * pw (specFwdOmega fmt par C H W src mb oc oh ow) := by
  unfold fwdVal
  rw [fwdOmega_eq_spec]

/-- Witness for C2 at a concrete instance (nchw, C = 3, local_size = 3). -/
theorem lrn_c2_forward_formula_witness :
    (0 : ℚ) ≤ 1 ∧ (0 : ℚ) ≤ 2 ∧ 3 % 2 = 1
    ∧ fwdVal (fun x => x + 5) Fmt.nchw ⟨2, 1, 1, 3, true⟩ 3 1 1
          (fun n => (n : ℚ)) 0 1 0 0
        = (fun n => (n : ℚ)) (data_off Fmt.nchw 3 1 1 0 1 0 0)
            * (fun x => x + 5)
                (specFwdOmega Fmt.nchw ⟨2, 1, 1, 3, true⟩ 3 1 1
                  (fun n => (n : ℚ)) 0 1 0 0) :=
  ⟨by norm_num, by norm_num, by norm_num,
    lrn_c2_forward_formula (fun x => x + 5) Fmt.nchw ⟨2, 1, 1, 3, true⟩ 3 1 1
      (fun n => (n : ℚ)) 0 1 0 0 (by norm_num) (by norm_num) (by norm_num)⟩

/-! ### Claim C4 -/

/-- Claim C4: layout equivalence of the forward kernel. If two physical
buffers hold the same logical tensor under two of the four handled layout
tags, the kernel produces the same value at every valid logical coordinate:
the computation reads only logical elements (window sum, omega, power) and
only the offset mapping differs. -/
theorem lrn_c4_layout_equivalence (pw : ℚ → ℚ) (par : LrnParams)
    (MB C H W : ℕ) (fmt1 fmt2 : Fmt) (src1 src2 : ℕ → ℚ)
    (hsame : ∀ mb < MB, ∀ c < C, ∀ h < H, ∀ w < W,
      src1 (data_off fmt1 C H W mb c h w) = src2 (data_off fmt2 C H W mb c h w))
    (mb oc oh ow : ℕ) (hmb : mb < MB) (hoc : oc < C) (hoh : oh < H)
    (how : ow < W) :
    fwdVal pw fmt1 par C H W src1 mb oc oh ow
      = fwdVal pw fmt2 par C H W src2 mb oc oh ow := by
  have hsum : fwdSum fmt1 par C H W src1 mb oc oh ow
      = fwdSum fmt2 par C H W src2 mb oc oh ow := by
    unfold fwdSum
    cases hb : par.across
    · simp only [Bool.false_eq_true, if_false]
      refine Finset.sum_congr rfl ?_
      intro h hh
      refine Finset.sum_congr rfl ?_
      intro w hw
      rw [hsame mb hmb oc hoc h (codeWindow_lt hh) w (codeWindow_lt hw)]
    · simp only [if_true]
      refine Finset.sum_congr rfl ?_
      intro c hc
      rw [hsame mb hmb c (codeWindow_lt hc) oh hoh ow how]
  unfold fwdVal fwdOmega
  rw [hsum, hsame mb hmb oc hoc oh hoh ow how]

/-- Witness for C4 at a concrete instance: nchw versus nhwc on a 1x2x1x2
tensor stored in the two layouts. -/
theorem lrn_c4_layout_equivalence_witness :
    (∀ mb < 1, ∀ c < 2, ∀ h < 1, ∀ w < 2,
      (fun n => ((n * n : ℕ) : ℚ)) (data_off Fmt.nchw 2 1 2 mb c h w)
        = (fun n => (((if n = 1 then 2 else if n = 2 then 1 else n : ℕ)
            * (if n = 1 then 2 else if n = 2 then 1 else n : ℕ) : ℕ) : ℚ))
            (data_off Fmt.nhwc 2 1 2 mb c h w))
    ∧ (0 : ℕ) < 1 ∧ (1 : ℕ) < 2 ∧ (0 : ℕ) < 1 ∧ (1 : ℕ) < 2
    ∧ fwdVal (fun x => x * x) Fmt.nchw ⟨1, 1, 1, 3, true⟩ 2 1 2
          (fun n => ((n * n : ℕ) : ℚ)) 0 1 0 1
        = fwdVal (fun x => x * x) Fmt.nhwc ⟨1, 1, 1, 3, true⟩ 2 1 2
            (fun n => (((if n = 1 then 2 else if n = 2 then 1 else n : ℕ)
              * (if n = 1 then 2 else if n = 2 then 1 else n : ℕ) : ℕ) : ℚ))
            0 1 0 1 :=
  ⟨by decide, by decide, by decide, by decide, by decide,
    lrn_c4_layout_equivalence (fun x => x * x) ⟨1, 1, 1, 3, true⟩ 1 2 1 2
      Fmt.nchw Fmt.nhwc _ _ (by decide) 0 1 0 1
      (by decide) (by decide) (by decide) (by decide)⟩

/-! ### Claim C5 -/

/-- Claim C5: the scalar helper computes x ^ (-beta) for every x > 0: at
beta = 0.75 exactly it returns y * sqrt(y) with y = 1/sqrt(x), which equals
x ^ (-0.75) and hence the general path 1 / x ^ beta; for any other beta it
returns 1 / x ^ beta. -/
theorem lrn_c5_fast_negative_powf_correct (x : ℝ) (hx : 0 < x) :
    fast_negative_powf x (3 / 4) = x ^ (-(3 / 4) : ℝ)
    ∧ fast_negative_powf x (3 / 4) = 1 / x ^ ((3 / 4) : ℝ)
    ∧ ∀ b : ℝ, b ≠ 3 / 4 → fast_negative_powf x b = 1 / x ^ b := by
  have hx0 : (0 : ℝ) ≤ x := le_of_lt hx
  have key : fast_negative_powf x (3 / 4) = x ^ (-(3 / 4) : ℝ) := by
    unfold fast_negative_powf
    rw [if_pos rfl]
    have h1 : 1 / Real.sqrt x = x ^ (-(1 / 2) : ℝ) := by
      rw [Real.sqrt_eq_rpow, Real.rpow_neg hx0, one_div]
    have h2 : Real.sqrt (x ^ (-(1 / 2) : ℝ)) = x ^ (-(1 / 4) : ℝ) := by
      rw [Real.sqrt_eq_rpow, ← Real.rpow_mul hx0]
      norm_num
    show (1 / Real.sqrt x) * Real.sqrt (1 / Real.sqrt x) = x ^ (-(3 / 4) : ℝ)
    rw [h1, h2, ← Real.rpow_add hx]
    norm_num
  refine ⟨key, ?_, ?_⟩
  · rw [key, Real.rpow_neg hx0, one_div]
  · intro b hb
    unfold fast_negative_powf
    rw [if_neg hb]

/-- Witness for C5 at x = 1. -/
theorem lrn_c5_fast_negative_powf_correct_witness :
    (0 : ℝ) < 1
    ∧ (fast_negative_powf 1 (3 / 4) = (1 : ℝ) ^ (-(3 / 4) : ℝ)
        ∧ fast_negative_powf 1 (3 / 4) = 1 / (1 : ℝ) ^ ((3 / 4) : ℝ)
        ∧ ∀ b : ℝ, b ≠ 3 / 4 → fast_negative_powf 1 b = 1 / (1 : ℝ) ^ b) :=
  ⟨one_pos, lrn_c5_fast_negative_powf_correct 1 one_pos⟩

/-! ### Claim C7 -/

/-- Claim C7: for local_size = 1 the forward kernel is the elementwise map
src * pw(k + alpha * src ^ 2) at each valid coordinate, independent of all
neighbors (the window degenerates to the element itself and summands = 1 in
both modes). -/
theorem lrn_c7_degenerate_window (pw : ℚ → ℚ) (fmt : Fmt) (par : LrnParams)
    (C H W : ℕ) (src : ℕ → ℚ) (mb oc oh ow : ℕ) (hsz : par.size = 1)
    (hoc : oc < C) (hoh : oh < H) (how : ow < W) :
    fwdVal pw fmt par C H W src mb oc oh ow
      = src (data_off fmt C H W mb oc oh ow)
          * pw (par.k + par.alpha
              * (src (data_off fmt C H W mb oc oh ow)) ^ 2) := by
  have hhalf : halfSize par.size = 0 := by rw [hsz]; rfl
  have hsm : (summandsOf par : ℚ) = 1 := by
    unfold summandsOf
    rw [hsz]
    cases par.across <;> norm_num
  simp only [fwdVal, fwdOmega, fwdSum, hhalf, hsm, codeWindow_singleton hoc,
    codeWindow_singleton hoh, codeWindow_singleton how, Finset.sum_singleton,
    div_one, pow_two]
  cases hb : par.across <;> simp [hb]

/-- Witness for C7 at a concrete instance. -/
theorem lrn_c7_degenerate_window_witness :
    (⟨2, 1, 1, 1, true⟩ : LrnParams).size = 1 ∧ (0 : ℕ) < 2 ∧ (0 : ℕ) < 1
    ∧ (0 : ℕ) < 1
    ∧ fwdVal (fun x => x * x) Fmt.nhwc ⟨2, 1, 1, 1, true⟩ 2 1 1
          (fun n => (n : ℚ) + 1) 0 0 0 0
        = (fun n => (n : ℚ) + 1) (data_off Fmt.nhwc 2 1 1 0 0 0 0)
            * (fun x => x * x)
                (1 + 2 * ((fun n => (n : ℚ) + 1)
                  (data_off Fmt.nhwc 2 1 1 0 0 0 0)) ^ 2) :=
  ⟨rfl, by decide, by decide, by decide,
    lrn_c7_degenerate_window (fun x => x * x) Fmt.nhwc ⟨2, 1, 1, 1, true⟩ 2 1 1
      (fun n => (n : ℚ) + 1) 0 0 0 0 rfl (by decide) (by decide) (by decide)⟩

/-! ### Claim C6 -/

/-- Claim C6: workspace optionality. The dst buffer of the forward run is
the same whether the workspace is supplied or not (the workspace store
never feeds any dst value); when it is supplied, the final workspace holds
omega at the data_off of every valid coordinate; and the backward value is
independent of any supplied workspace (this reference backward always
recomputes omega from src). -/
theorem lrn_c6_workspace_optional (pw : ℚ → ℚ) (fmt : Fmt) (par : LrnParams)
    (MB C H W : ℕ) (src : ℕ → ℚ) (hdvd : layoutBlk fmt ∣ C) :
    (∀ st st' : FwdState, st.dst = st'.dst →
        (runForward pw fmt par MB C H W src true st).dst
          = (runForward pw fmt par MB C H W src false st').dst)
    ∧ (∀ st : FwdState, ∀ q : Coord, q.valid MB C H W →
        (runForward pw fmt par MB C H W src true st).ws
            (data_off fmt C H W q.mb q.c q.h q.w)
          = fwdOmega fmt par C H W src q.mb q.c q.h q.w)
    ∧ (∀ dd : ℕ → ℚ, ∀ ws ws' : Option (ℕ → ℚ), ∀ mb oc oh ow : ℕ,
        bwdVal pw fmt par C H W src dd ws mb oc oh ow
          = bwdVal pw fmt par C H W src dd ws' mb oc oh ow) := by
  refine ⟨?_, ?_, ?_⟩
  · intro st st' h
    exact foldl_dst_eq pw fmt par C H W src (loopPairs fmt MB C H W) st st' h
  · intro st q hq
    obtain ⟨pr, hpr, hpq⟩ := loopPairs_fst_mem fmt hdvd hq
    have hsnd : ∀ pr' ∈ loopPairs fmt MB C H W,
        pr'.2 = data_off fmt C H W pr'.1.mb pr'.1.c pr'.1.h pr'.1.w :=
      fun pr' hpr' => loopPairs_snd_eq fmt hpr'
    have hnd : ((loopPairs fmt MB C H W).map Prod.snd).Nodup := by
      rw [loopPairs_snd_range fmt MB C H W hdvd]
      exact List.nodup_range _
    have h1 := foldl_ws_written pw fmt par C H W src (loopPairs fmt MB C H W)
      hsnd hnd pr hpr st
    rw [← hpq, ← hsnd pr hpr]
    exact h1
  · intro dd ws ws' mb oc oh ow
    rfl

/-- Witness for C6 at a concrete instance. -/
theorem lrn_c6_workspace_optional_witness :
    layoutBlk Fmt.nchw ∣ 1
    ∧ ((∀ st st' : FwdState, st.dst = st'.dst →
        (runForward (fun x => x) Fmt.nchw ⟨1, 1, 1, 1, true⟩ 1 1 1 1
            (fun _ => 1) true st).dst
          = (runForward (fun x => x) Fmt.nchw ⟨1, 1, 1, 1, true⟩ 1 1 1 1
              (fun _ => 1) false st').dst)
    ∧ (∀ st : FwdState, ∀ q : Coord, q.valid 1 1 1 1 →
        (runForward (fun x => x) Fmt.nchw ⟨1, 1, 1, 1, true⟩ 1 1 1 1
            (fun _ => 1) true st).ws
            (data_off Fmt.nchw 1 1 1 q.mb q.c q.h q.w)
          = fwdOmega Fmt.nchw ⟨1, 1, 1, 1, true⟩ 1 1 1 (fun _ => 1)
              q.mb q.c q.h q.w)
    ∧ (∀ dd : ℕ → ℚ, ∀ ws ws' : Option (ℕ → ℚ), ∀ mb oc oh ow : ℕ,
        bwdVal (fun x => x) Fmt.nchw ⟨1, 1, 1, 1, true⟩ 1 1 1
            (fun _ => 1) dd ws mb oc oh ow
          = bwdVal (fun x => x) Fmt.nchw ⟨1, 1, 1, 1, true⟩ 1 1 1
              (fun _ => 1) dd ws' mb oc oh ow)) :=
  ⟨by decide,
    lrn_c6_workspace_optional (fun x => x) Fmt.nchw ⟨1, 1, 1, 1, true⟩ 1 1 1 1
      (fun _ => 1) (by decide)⟩

/-! ### Claim C8 -/

/-- Claim C8 as stated is false: at MB = 1, C = 4, H = 2, W = 1 the nChw8c
offset function does not even map the valid range into
[0, MB*C*H*W): the coordinate (0, 0, 1, 0) gets offset 8 = MB*C*H*W,
because the blocked layout addresses a buffer padded to a whole number of
channel blocks. -/
theorem lrn_c8_blocked_offset_escapes_range :
    ¬ (∀ mb < 1, ∀ c < 4, ∀ h < 2, ∀ w < 1,
        data_off Fmt.nChw8c 4 2 1 mb c h w < 1 * (4 * 2 * 1)) := by decide

/-- Claim C8 amended: each of the four offset functions is a bijection from
the valid index range onto [0, MB*C*H*W) provided the block size of the
layout divides C (no condition for the planar layouts, whose block size
is 1). -/
theorem lrn_c8_data_off_bijective (fmt : Fmt) (MB C H W : ℕ)
    (hdvd : layoutBlk fmt ∣ C) : offBij fmt MB C H W := by
  refine ⟨?_, ?_, data_off_surj fmt hdvd⟩
  · intro mb hmb c hc h hh w hw
    exact data_off_lt fmt hdvd hmb hc hh hw
  · intro mb hmb c hc h hh w hw mb' hmb' c' hc' h' hh' w' hw' heq
    exact data_off_inj fmt hdvd hc hh hw hc' hh' hw' heq

/-- Witness for the amended C8 at a concrete instance with C a multiple of
the block size. -/
theorem lrn_c8_data_off_bijective_witness :
    layoutBlk Fmt.nChw8c ∣ 8 ∧ offBij Fmt.nChw8c 1 8 1 2 :=
  ⟨by decide, lrn_c8_data_off_bijective Fmt.nChw8c 1 8 1 2 (by decide)⟩

/-! ### Claim C9 -/

/-- Claim C9: under the precondition that the block size divides C, a
blocked driver enumerates the channels in whole blocks covering precisely
the logical channels 0, ..., C-1; every kernel invocation is at a valid
coordinate with its write offset inside [0, MB*C*H*W); and every offset the
kernel computes (data_off at valid coordinates, which covers the window
reads since window indices stay inside the bounds) lies in
[0, MB*C*H*W). -/
theorem lrn_c9_blocked_driver_safety (fmt : Fmt) (MB C H W : ℕ)
    (hbl : fmt = Fmt.nChw8c ∨ fmt = Fmt.nChw16c) (hdvd : blksize fmt ∣ C) :
    blockChannels C (blksize fmt) = List.range C
    ∧ (∀ pr ∈ loopPairs fmt MB C H W,
        pr.1.valid MB C H W ∧ pr.2 < MB * (C * H * W))
    ∧ (∀ mb < MB, ∀ c < C, ∀ h < H, ∀ w < W,
        data_off fmt C H W mb c h w < MB * (C * H * W)) := by
  have hd : layoutBlk fmt ∣ C := by
    rcases hbl with h | h <;> subst h <;> exact hdvd
  refine ⟨?_, ?_, ?_⟩
  · refine blockChannels_eq_range ?_ hdvd
    rcases hbl with h | h <;> subst h <;> decide
  · intro pr hpr
    refine ⟨loopPairs_fst_valid fmt hd hpr, ?_⟩
    have hm : pr.2 ∈ (loopPairs fmt MB C H W).map Prod.snd :=
      List.mem_map_of_mem Prod.snd hpr
    rw [loopPairs_snd_range fmt MB C H W hd] at hm
    exact List.mem_range.mp hm
  · intro mb hmb c hc h hh w hw
    exact data_off_lt fmt hd hmb hc hh hw

/-- Witness for C9 at a concrete instance. -/
theorem lrn_c9_blocked_driver_safety_witness :
    (Fmt.nChw8c = Fmt.nChw8c ∨ Fmt.nChw8c = Fmt.nChw16c)
    ∧ blksize Fmt.nChw8c ∣ 8
    ∧ (blockChannels 8 (blksize Fmt.nChw8c) = List.range 8
    ∧ (∀ pr ∈ loopPairs Fmt.nChw8c 1 8 1 1,
        pr.1.valid 1 8 1 1 ∧ pr.2 < 1 * (8 * 1 * 1))
    ∧ (∀ mb < 1, ∀ c < 8, ∀ h < 1, ∀ w < 1,
        data_off Fmt.nChw8c 8 1 1 mb c h w < 1 * (8 * 1 * 1))) :=
  ⟨Or.inl rfl, by decide,
    lrn_c9_blocked_driver_safety Fmt.nChw8c 1 8 1 1 (Or.inl rfl) (by decide)⟩

/-! ### Claim C10 -/

/-- Claim C10: the inline offsets of the loop drivers agree with the layout
addressing function: the blocked inline formula equals off_blocked at
channel c + cc whenever blk divides c and cc < blk; the nhwc inline formula
is data_off for nhwc; every driver writes each output element at the
data_off of its coordinate; the written offsets are pairwise distinct (each
element is written exactly once); and every valid coordinate is written. -/
theorem lrn_c10_driver_offsets_agree (fmt : Fmt) (MB C H W : ℕ)
    (hdvd : layoutBlk fmt ∣ C) :
    (∀ blk mb c h w cc : ℕ, blk ∣ c → cc < blk →
        mb * (C * H * W) + c * (H * W) + (h * W + w) * blk + cc
          = off_blocked blk C H W mb (c + cc) h w)
    ∧ (∀ mb c h w : ℕ,
        mb * (C * H * W) + h * (W * C) + w * C + c
          = data_off Fmt.nhwc C H W mb c h w)
    ∧ (∀ pr ∈ loopPairs fmt MB C H W,
        pr.2 = data_off fmt C H W pr.1.mb pr.1.c pr.1.h pr.1.w)
    ∧ ((loopPairs fmt MB C H W).map Prod.snd).Nodup
    ∧ (∀ q : Coord, q.valid MB C H W →
        ∃ pr ∈ loopPairs fmt MB C H W, pr.1 = q) := by
  refine ⟨?_, ?_, fun pr hpr => loopPairs_snd_eq fmt hpr, ?_,
    fun q hq => loopPairs_fst_mem fmt hdvd hq⟩
  · intro blk mb c h w cc hdc hcc
    obtain ⟨b, rfl⟩ := hdc
    have hblk : 0 < blk := by omega
    have hdiv : (blk * b + cc) / blk = b := by
      rw [Nat.mul_add_div hblk, Nat.div_eq_of_lt hcc]
      omega
    have hmod : (blk * b + cc) % blk = cc := by
      rw [Nat.mul_add_mod, Nat.mod_eq_of_lt hcc]
    unfold off_blocked
    rw [hdiv, hmod]
    ring
  · intro mb c h w
    simp only [data_off]
  · rw [loopPairs_snd_range fmt MB C H W hdvd]
    exact List.nodup_range _

/-- Witness for C10 at a concrete blocked instance. -/
theorem lrn_c10_driver_offsets_agree_witness :
    layoutBlk Fmt.nChw8c ∣ 8
    ∧ ((∀ blk mb c h w cc : ℕ, blk ∣ c → cc < blk →
        mb * (8 * 1 * 1) + c * (1 * 1) + (h * 1 + w) * blk + cc
          = off_blocked blk 8 1 1 mb (c + cc) h w)
    ∧ (∀ mb c h w : ℕ,
        mb * (8 * 1 * 1) + h * (1 * 8) + w * 8 + c
          = data_off Fmt.nhwc 8 1 1 mb c h w)
    ∧ (∀ pr ∈ loopPairs Fmt.nChw8c 1 8 1 1,
        pr.2 = data_off Fmt.nChw8c 8 1 1 pr.1.mb pr.1.c pr.1.h pr.1.w)
    ∧ ((loopPairs Fmt.nChw8c 1 8 1 1).map Prod.snd).Nodup
    ∧ (∀ q : Coord, q.valid 1 8 1 1 →
        ∃ pr ∈ loopPairs Fmt.nChw8c 1 8 1 1, pr.1 = q)) :=
  ⟨by decide, lrn_c10_driver_offsets_agree Fmt.nChw8c 1 8 1 1 (by decide)⟩

end RefLrn
